import Mathlib

/-!
Verification of the libxcam CL tonemapping handlers.

This file gives a shallow embedding of the two CPU-side tonemapping
algorithms of the repository and proves / refutes the frozen claims
about them.

* `src/xcore/cl_tonemapping_handler.cpp`
  (`CLTonemappingImageKernel::prepare_arguments`, the global target
  estimator) is embedded as `tmScan` / `tmYSat` / `tmYAvg` /
  `tmYTargetPre` / `tmYMaxPre` / `tmYTarget` / `tmYMax`.

* `src/xcore/cl_newtonemapping_handler.cpp` (`Haleq`,
  `Block_split_haleq` and the block orchestration in
  `CLNewTonemappingImageKernel::prepare_arguments`) is embedded as
  `Haleq`, `Block_split_haleq`, `blockStartIndexM`, `blockReadsB`, ....

Modelling conventions.

* C `int` arithmetic is modelled by `ℤ`; C truncating division (`/` on
  ints, and `(int)` casts of exact half-integer floats) is `Int.tdiv`.
* C arrays are total functions `ℤ → ℤ` (or `ℤ → ℚ`); a freshly
  allocated, uninitialized array is an arbitrary "garbage" parameter,
  so that dependence on prior memory contents is visible in the model.
* The float computations of the source that are exactly representable
  are translated exactly: in `Haleq`, `e`, `l`, `le = 0.5*(e-l)+l` and
  `le + 0.5` are half-integers of magnitude < 2^17 for every bit depth
  ≤ 16, hence exact in IEEE single precision, and `(int)(le + 0.5f)`
  equals `Int.tdiv (2*le + 1) 2`.
* The genuinely inexact float part of `Block_split_haleq` — the
  log-domain compression of lines 97–144, which uses `log` — is not
  modelled bitwise; its only output, the per-level compressed index
  map `map_index_log` (restricted to levels `< y_max`), is taken as an
  explicit parameter `mil` of the model.  Theorems that need
  properties of that map (its values lie in `[0, hist_bin_count)`,
  monotonicity) take them as hypotheses.
* Float divisions producing the final curve values and the target
  scalars are idealized to exact rational arithmetic (`ℚ`).
-/

/-! ### Global target estimator (`cl_tonemapping_handler.cpp`) -/

/-- State of the top-down histogram scan of
`CLTonemappingImageKernel::prepare_arguments` (lines 86–102):
running pixel count, the three recorded bin indices and the running
`Σ i * hist_y[i]` accumulator. -/
structure TmScan where
  pnum : ℤ
  ysat : ℤ
  yp90 : ℤ
  ymed : ℤ
  cumv : ℤ
deriving Repr, DecidableEq

/-- One iteration of the scan loop at bin `i` (lines 88–101). -/
def tmScanStep (hist : ℕ → ℤ) (satTh p90Th medTh : ℤ) (i : ℕ) (s : TmScan) : TmScan :=
  let pnum := s.pnum + hist i
  { pnum := pnum
    ysat := if s.ysat = 0 ∧ satTh ≤ pnum then (i : ℤ) else s.ysat
    yp90 := if s.yp90 = 0 ∧ p90Th ≤ pnum then (i : ℤ) else s.yp90
    ymed := if s.ymed = 0 ∧ medTh ≤ pnum then (i : ℤ) else s.ymed
    cumv := s.cumv + (i : ℤ) * hist i }

/-- Scan state after processing the `n` brightest bins
`hist_bin_count - 1, …, hist_bin_count - n` (the loop runs from the
top bin downwards). -/
def tmScanAux (hist : ℕ → ℤ) (satTh p90Th medTh : ℤ) (hbc : ℕ) : ℕ → TmScan
  | 0 => ⟨0, 0, 0, 0, 0⟩
  | n + 1 => tmScanStep hist satTh p90Th medTh (hbc - (n + 1))
      (tmScanAux hist satTh p90Th medTh hbc n)

/-- Full scan over all `2^bit_depth` bins, top to bottom. -/
def tmScan (hist : ℕ → ℤ) (satTh p90Th medTh : ℤ) (bd : ℕ) : TmScan :=
  tmScanAux hist satTh p90Th medTh (2 ^ bd) (2 ^ bd)

/-- `y_saturated` after the conditional increment of lines 106–108:
incremented unless it is already the top bin. -/
def tmYSat (hist : ℕ → ℤ) (satTh p90Th medTh : ℤ) (bd : ℕ) : ℤ :=
  let s := tmScan hist satTh p90Th medTh bd
  if s.ysat < (2 ^ bd : ℤ) - 1 then s.ysat + 1 else s.ysat

/-- `y_average = cumulative_value / pixel_totalnum` (line 104); this is
C integer (truncating) division of the `int64_t` accumulator. -/
def tmYAvg (hist : ℕ → ℤ) (satTh p90Th medTh : ℤ) (bd : ℕ) (tot : ℤ) : ℤ :=
  Int.tdiv (tmScan hist satTh p90Th medTh bd).cumv tot

/-- `_y_target` after lines 110–117 (the formula, the floor at 4, and
the re-derivation as `y_saturated / 4`), before the bit-depth
rescale. -/
def tmYTargetPre (hist : ℕ → ℤ) (satTh p90Th medTh : ℤ) (bd : ℕ) (tot : ℤ) : ℚ :=
  let ys : ℚ := (tmYSat hist satTh p90Th medTh bd : ℚ)
  let t0 : ℚ := (((2 : ℚ) ^ bd) / ys) *
    (1.5 * ((tmScan hist satTh p90Th medTh bd).ymed : ℚ)
      + 0.5 * (tmYAvg hist satTh p90Th medTh bd tot : ℚ)) / 2
  let t1 : ℚ := if t0 < 4 then 4 else t0
  if ys < t1 ∨ ys < 4 then ys / 4 else t1

/-- `_y_max` of line 119, before the bit-depth rescale. -/
def tmYMaxPre (hist : ℕ → ℤ) (satTh p90Th medTh : ℤ) (bd : ℕ) (tot : ℤ) : ℚ :=
  let ys : ℚ := (tmYSat hist satTh p90Th medTh bd : ℚ)
  let yt : ℚ := tmYTargetPre hist satTh p90Th medTh bd tot
  ((2 : ℚ) ^ bd) * (2 * ys + yt) / ys - ys - yt

/-- `_y_target` after the rescale by `pow(2, bit_depth - 8)` (line 121). -/
def tmYTarget (hist : ℕ → ℤ) (satTh p90Th medTh : ℤ) (bd : ℕ) (tot : ℤ) : ℚ :=
  tmYTargetPre hist satTh p90Th medTh bd tot / (2 : ℚ) ^ ((bd : ℤ) - 8)

/-- `_y_max` after the rescale by `pow(2, bit_depth - 8)` (line 122). -/
def tmYMax (hist : ℕ → ℤ) (satTh p90Th medTh : ℤ) (bd : ℕ) (tot : ℤ) : ℚ :=
  tmYMaxPre hist satTh p90Th medTh bd tot / (2 : ℚ) ^ ((bd : ℤ) - 8)

/-- Spec-reading of `y_average` with exact (rational) division, per the
claim's formula `y_average = Σ(level×count) / total_pixels`; used to
compare against the code's truncating integer division. -/
def tmSpecYAvg (hist : ℕ → ℤ) (satTh p90Th medTh : ℤ) (bd : ℕ) (tot : ℤ) : ℚ :=
  ((tmScan hist satTh p90Th medTh bd).cumv : ℚ) / (tot : ℚ)

/-- Spec-reading of pre-rescale `y_target` built on the exact-division
`y_average` (everything else as in the code). -/
def tmSpecYTargetPre (hist : ℕ → ℤ) (satTh p90Th medTh : ℤ) (bd : ℕ) (tot : ℤ) : ℚ :=
  let ys : ℚ := (tmYSat hist satTh p90Th medTh bd : ℚ)
  let t0 : ℚ := (((2 : ℚ) ^ bd) / ys) *
    (1.5 * ((tmScan hist satTh p90Th medTh bd).ymed : ℚ)
      + 0.5 * tmSpecYAvg hist satTh p90Th medTh bd tot) / 2
  let t1 : ℚ := if t0 < 4 then 4 else t0
  if ys < t1 ∨ ys < 4 then ys / 4 else t1

/-! Scan invariants. -/

lemma tmScanAux_ysat_bounds (hist : ℕ → ℤ) (satTh p90Th medTh : ℤ) (hbc : ℕ) :
    ∀ n : ℕ, 0 ≤ (tmScanAux hist satTh p90Th medTh hbc n).ysat ∧
      (tmScanAux hist satTh p90Th medTh hbc n).ysat ≤ (hbc : ℤ) - 1 ∨
      (tmScanAux hist satTh p90Th medTh hbc n).ysat = 0 := by
  intro n
  induction n with
  | zero => right; rfl
  | succ n ih =>
    simp only [tmScanAux, tmScanStep]
    split
    · rcases Nat.eq_zero_or_pos hbc with h0 | h1
      · right; simp [h0]
      · left
        refine ⟨Int.ofNat_nonneg _, ?_⟩
        have h2 : hbc - (n + 1) ≤ hbc - 1 := by omega
        calc ((hbc - (n + 1) : ℕ) : ℤ) ≤ ((hbc - 1 : ℕ) : ℤ) := by exact_mod_cast h2
          _ ≤ (hbc : ℤ) - 1 := by omega
    · exact ih

lemma tmScan_ysat_bounds (hist : ℕ → ℤ) (satTh p90Th medTh : ℤ) (bd : ℕ) :
    0 ≤ (tmScan hist satTh p90Th medTh bd).ysat ∧
      (tmScan hist satTh p90Th medTh bd).ysat ≤ (2 ^ bd : ℤ) - 1 := by
  have h := tmScanAux_ysat_bounds hist satTh p90Th medTh (2 ^ bd) (2 ^ bd)
  have hp : (0 : ℤ) < (2 : ℤ) ^ bd := by positivity
  rcases h with h | h
  · refine ⟨h.1, ?_⟩
    have := h.2
    rw [tmScan]
    push_cast at this ⊢
    omega
  · rw [tmScan, h]; omega

lemma tmYSat_pos (hist : ℕ → ℤ) (satTh p90Th medTh : ℤ) (bd : ℕ) (hbd : 1 ≤ bd) :
    1 ≤ tmYSat hist satTh p90Th medTh bd := by
  have hb := tmScan_ysat_bounds hist satTh p90Th medTh bd
  have hp : (2 : ℤ) ≤ (2 : ℤ) ^ bd := by
    calc (2 : ℤ) = 2 ^ 1 := (pow_one 2).symm
      _ ≤ 2 ^ bd := pow_le_pow_right₀ (by norm_num) hbd
  rw [tmYSat]
  split <;> omega

lemma tmYSat_nonneg (hist : ℕ → ℤ) (satTh p90Th medTh : ℤ) (bd : ℕ) :
    0 ≤ tmYSat hist satTh p90Th medTh bd := by
  have hb := tmScan_ysat_bounds hist satTh p90Th medTh bd
  rw [tmYSat]; split <;> omega

lemma tmScanAux_cumv (hist : ℕ → ℤ) (satTh p90Th medTh : ℤ) (hbc : ℕ) :
    ∀ n : ℕ, (tmScanAux hist satTh p90Th medTh hbc n).cumv
      = ∑ i in Finset.Ico (hbc - n) hbc, (i : ℤ) * hist i := by
  intro n
  induction n with
  | zero => simp [tmScanAux]
  | succ n ih =>
    simp only [tmScanAux, tmScanStep]
    rw [ih]
    rcases le_or_lt (n + 1) hbc with h | h
    · rw [Finset.sum_eq_sum_Ico_succ_bot (by omega : hbc - (n + 1) < hbc)]
      have h1 : hbc - (n + 1) + 1 = hbc - n := by omega
      rw [h1]; ring
    · have h2 : hbc - (n + 1) = 0 := by omega
      have h1 : hbc - n = 0 := by omega
      simp only [h1, h2, Nat.cast_zero, zero_mul, add_zero]

lemma tmScan_cumv (hist : ℕ → ℤ) (satTh p90Th medTh : ℤ) (bd : ℕ) :
    (tmScan hist satTh p90Th medTh bd).cumv
      = ∑ i in Finset.range (2 ^ bd), (i : ℤ) * hist i := by
  rw [tmScan, tmScanAux_cumv, Nat.sub_self, Finset.range_eq_Ico]

/-- All-dark test histogram: every sampled pixel has luma level 0. -/
def tmHistDark : ℕ → ℤ := fun i => if i = 0 then 100 else 0

/-- Test histogram with a bright outlier at level 9, the median mass at
level 4 and some mass at level 1 (with thresholds 1/10/60 and
`pixel_totalnum = 100`, the scan records `y_saturated = 9`,
`y_medium = 4`, and `Σ i·hist i = 288` is not divisible by 100). -/
def tmHistMid : ℕ → ℤ :=
  fun i => if i = 9 then 1 else if i = 4 then 60 else if i = 1 then 39 else 0

/-- C8: After the conditional increment, `y_saturated` has been
incremented by one unless it already equals the top bin index
`hist_bin_count - 1`; consequently `y_saturated ≥ 1` holds for every
input histogram (including an all-zero one), so the later divisions by
`y_saturated` in the `y_target` / `y_max` computations never divide by
zero. -/
theorem C8_ysat_guard (hist : ℕ → ℤ) (satTh p90Th medTh : ℤ) (bd : ℕ) (hbd : 1 ≤ bd) :
    tmYSat hist satTh p90Th medTh bd
      = (tmScan hist satTh p90Th medTh bd).ysat
        + (if (tmScan hist satTh p90Th medTh bd).ysat = (2 ^ bd : ℤ) - 1 then 0 else 1)
    ∧ 1 ≤ tmYSat hist satTh p90Th medTh bd
    ∧ ((tmYSat hist satTh p90Th medTh bd : ℚ) ≠ 0) := by
  have hb := tmScan_ysat_bounds hist satTh p90Th medTh bd
  have hpos := tmYSat_pos hist satTh p90Th medTh bd hbd
  refine ⟨?_, hpos, ?_⟩
  · rw [tmYSat]
    split_ifs with h1 h2 h3 <;> omega
  · have : (0 : ℤ) ≠ tmYSat hist satTh p90Th medTh bd := by omega
    exact_mod_cast (Ne.symm this)

/-- Witness for C8 at a concrete all-zero histogram with `bit_depth = 1`. -/
theorem C8_ysat_guard_witness : 1 ≤ tmYSat (fun _ => 0) 0 0 0 1 :=
  (C8_ysat_guard (fun _ => 0) 0 0 0 1 (by norm_num)).2.1

lemma tmScan_dark : tmScan tmHistDark 1 10 60 4 = ⟨100, 0, 0, 0, 0⟩ := by decide

lemma tmYSat_dark : tmYSat tmHistDark 1 10 60 4 = 1 := by
  simp only [tmYSat, tmScan_dark]
  norm_num

lemma tmYAvg_dark : tmYAvg tmHistDark 1 10 60 4 100 = 0 := by
  simp only [tmYAvg, tmScan_dark]
  rfl

/-- C2 counterexample: for the all-dark histogram (every pixel at luma
level 0, a histogram with a non-zero bin), the post-floor/ceiling
`y_target` is `y_saturated / 4 = 1/4 < 4`, refuting the claimed lower
bound `y_target ≥ 4`. -/
theorem C2_target_floor_cex :
    (∃ i, i < 2 ^ 4 ∧ tmHistDark i ≠ 0) ∧
      tmYTargetPre tmHistDark 1 10 60 4 100 < 4 := by
  refine ⟨⟨0, by norm_num, by norm_num [tmHistDark]⟩, ?_⟩
  simp only [tmYTargetPre, tmScan_dark, tmYSat_dark, tmYAvg_dark]
  norm_num

/-- C2 (amended): for every histogram, after the floor/ceiling logic
and before the bit-depth rescale, `y_target ≤ y_saturated` and
`y_target > 0` hold, and `y_target ≥ 4` holds whenever
`y_saturated ≥ 16`; the unconditional bound `y_target ≥ 4` fails
because the re-derivation branch sets `y_target = y_saturated / 4`,
which is below 4 for `y_saturated < 16`. -/
theorem C2_target_range (hist : ℕ → ℤ) (satTh p90Th medTh : ℤ) (bd : ℕ) (tot : ℤ)
    (hbd : 1 ≤ bd) (hnz : ∃ i, i < 2 ^ bd ∧ hist i ≠ 0) :
    tmYTargetPre hist satTh p90Th medTh bd tot ≤ (tmYSat hist satTh p90Th medTh bd : ℚ)
    ∧ 0 < tmYTargetPre hist satTh p90Th medTh bd tot
    ∧ (16 ≤ tmYSat hist satTh p90Th medTh bd →
        4 ≤ tmYTargetPre hist satTh p90Th medTh bd tot) := by
  clear hnz
  have hys := tmYSat_pos hist satTh p90Th medTh bd hbd
  have hysQ : (1 : ℚ) ≤ (tmYSat hist satTh p90Th medTh bd : ℚ) := by exact_mod_cast hys
  simp only [tmYTargetPre]
  set ys : ℚ := (tmYSat hist satTh p90Th medTh bd : ℚ) with hysdef
  set t0 : ℚ := (((2 : ℚ) ^ bd) / ys) *
    (1.5 * ((tmScan hist satTh p90Th medTh bd).ymed : ℚ)
      + 0.5 * (tmYAvg hist satTh p90Th medTh bd tot : ℚ)) / 2 with ht0
  set t1 : ℚ := if t0 < 4 then (4 : ℚ) else t0 with ht1
  have h4 : (4 : ℚ) ≤ t1 := by
    rw [ht1]; split_ifs with h
    · exact le_refl 4
    · exact not_lt.mp h
  by_cases hbr : ys < t1 ∨ ys < 4
  · rw [if_pos hbr]
    refine ⟨by linarith, by linarith, ?_⟩
    intro h16
    have h16Q : (16 : ℚ) ≤ ys := by rw [hysdef]; exact_mod_cast h16
    linarith
  · rw [if_neg hbr]
    push_neg at hbr
    exact ⟨hbr.1, by linarith, fun _ => h4⟩

/-- Witness for C2 (amended) at the all-dark histogram. -/
theorem C2_target_range_witness :
    tmYTargetPre tmHistDark 1 10 60 4 100 ≤ (tmYSat tmHistDark 1 10 60 4 : ℚ) :=
  (C2_target_range tmHistDark 1 10 60 4 100 (by norm_num)
    ⟨0, by norm_num, by norm_num [tmHistDark]⟩).1

lemma tmScan_mid : tmScan tmHistMid 1 10 60 4 = ⟨100, 9, 4, 4, 288⟩ := by decide

lemma tmYSat_mid : tmYSat tmHistMid 1 10 60 4 = 10 := by
  simp only [tmYSat, tmScan_mid]
  norm_num

lemma tmYAvg_mid : tmYAvg tmHistMid 1 10 60 4 100 = 2 := by
  simp only [tmYAvg, tmScan_mid]
  rfl

/-- C6 counterexample: with the concrete histogram `tmHistMid`
(`Σ i·hist i = 288`, `pixel_totalnum = 100`), the code's `y_target`
(computed from the truncating integer division
`y_average = 288 / 100 = 2`) differs from the value demanded by the
claim's formula `y_average = Σ(level×count) / total_pixels` read as
exact division (`2.88`): the code yields `28/5` but the claimed
formulas yield `744/125`. -/
theorem C6_formulas_cex :
    tmYTargetPre tmHistMid 1 10 60 4 100 ≠ tmSpecYTargetPre tmHistMid 1 10 60 4 100 := by
  have h1 : tmYTargetPre tmHistMid 1 10 60 4 100 = 28 / 5 := by
    simp only [tmYTargetPre, tmScan_mid, tmYSat_mid, tmYAvg_mid]
    norm_num
  have h2 : tmSpecYTargetPre tmHistMid 1 10 60 4 100 = 744 / 125 := by
    simp only [tmSpecYTargetPre, tmSpecYAvg, tmScan_mid, tmYSat_mid]
    norm_num
  rw [h1, h2]
  norm_num

/-- C6 (amended): the estimator computes its outputs by the stated
formulas once `y_average` is read as the truncating integer division
`⌊Σ(level×count) / total_pixels⌋` that the code performs:
`y_target = (bin_count / y_saturated) · (1.5·y_medium + 0.5·y_average) / 2`
floored at 4 (i.e. `max 4 ·`) and re-derived as `y_saturated / 4`
whenever it exceeds `y_saturated` or `y_saturated < 4`;
`y_max = bin_count·(2·y_saturated + y_target)/y_saturated − y_saturated − y_target`;
and both outputs are then divided by `2^(bit_depth − 8)`. -/
theorem C6_formulas (hist : ℕ → ℤ) (satTh p90Th medTh : ℤ) (bd : ℕ) (tot : ℤ) :
    tmYAvg hist satTh p90Th medTh bd tot
      = Int.tdiv (∑ i in Finset.range (2 ^ bd), (i : ℤ) * hist i) tot
  ∧ tmYTargetPre hist satTh p90Th medTh bd tot
      = (if (tmYSat hist satTh p90Th medTh bd : ℚ) <
            max 4 ((((2 : ℚ) ^ bd) / (tmYSat hist satTh p90Th medTh bd : ℚ)) *
              (1.5 * ((tmScan hist satTh p90Th medTh bd).ymed : ℚ)
                + 0.5 * (tmYAvg hist satTh p90Th medTh bd tot : ℚ)) / 2)
           ∨ (tmYSat hist satTh p90Th medTh bd : ℚ) < 4
         then (tmYSat hist satTh p90Th medTh bd : ℚ) / 4
         else max 4 ((((2 : ℚ) ^ bd) / (tmYSat hist satTh p90Th medTh bd : ℚ)) *
              (1.5 * ((tmScan hist satTh p90Th medTh bd).ymed : ℚ)
                + 0.5 * (tmYAvg hist satTh p90Th medTh bd tot : ℚ)) / 2))
  ∧ tmYMaxPre hist satTh p90Th medTh bd tot
      = ((2 : ℚ) ^ bd) * (2 * (tmYSat hist satTh p90Th medTh bd : ℚ)
            + tmYTargetPre hist satTh p90Th medTh bd tot)
          / (tmYSat hist satTh p90Th medTh bd : ℚ)
        - (tmYSat hist satTh p90Th medTh bd : ℚ)
        - tmYTargetPre hist satTh p90Th medTh bd tot
  ∧ tmYTarget hist satTh p90Th medTh bd tot
      = tmYTargetPre hist satTh p90Th medTh bd tot / (2 : ℚ) ^ ((bd : ℤ) - 8)
  ∧ tmYMax hist satTh p90Th medTh bd tot
      = tmYMaxPre hist satTh p90Th medTh bd tot / (2 : ℚ) ^ ((bd : ℤ) - 8) := by
  refine ⟨?_, ?_, rfl, rfl, rfl⟩
  · rw [tmYAvg, tmScan_cumv]
  · rw [tmYTargetPre]
    have hmax : ∀ t0 : ℚ, (if t0 < 4 then (4 : ℚ) else t0) = max 4 t0 := by
      intro t0
      rcases lt_or_le t0 4 with h | h
      · rw [if_pos h, max_eq_left h.le]
      · rw [if_neg (not_lt.mpr h), max_eq_right h]
    rw [hmax]

/-! ### Block tonemapping (`cl_newtonemapping_handler.cpp`) -/

/-- The descending scan of lines 70–77 of `Block_split_haleq`: the
highest bin index `i < n` with `hist[i] > 0`, or `0` if none. -/
def yMaxScan (hist : ℕ → ℤ) : ℕ → ℕ
  | 0 => 0
  | n + 1 => if 0 < hist n then n else yMaxScan hist n

/-- `y_max` after line 84: highest non-empty bin plus one. -/
def yMaxB (hist : ℕ → ℤ) (hbc : ℕ) : ℕ := yMaxScan hist hbc + 1

/-- `map_index_log` after the clamp/extension loop of lines 146–150:
levels at or above `y_max` reuse the compressed index of level
`y_max - 1`.  The map `mil` on levels `< y_max` is the output of the
float log-compression phase (lines 97–144), taken as a parameter. -/
def map_index_log_ext (mil : ℕ → ℕ) (ymax : ℕ) (i : ℕ) : ℕ :=
  if i < ymax then mil i else mil (ymax - 1)

/-- `hist_log` after lines 92–150: bin `k` accumulates `hist[i]` over
all levels `i` whose (extended) compressed index is `k`. -/
def hist_log (hist : ℕ → ℤ) (mil : ℕ → ℕ) (hbc : ℕ) (k : ℕ) : ℤ :=
  ∑ i in Finset.range hbc, if map_index_log_ext mil (yMaxB hist hbc) i = k then hist i else 0

/-- The in-place prefix sum of lines 163–166: `hist_log[k]` becomes
`Σ_{i ≤ k} hist_log[i]`.  Modelled as a total function on `ℤ`
(`Haleq` only ever reads indices in `[0, hist_bin_count)`, which is
proved separately). -/
def cumlog (hl : ℕ → ℤ) (k : ℤ) : ℤ := ∑ i in Finset.range (k.toNat + 1), hl i

/-- The `sort_y` fill of lines 152–160 after processing bins
`0, …, m-1`: the pair (array contents, next write index `sort_index`).
The inner loop writes `hist_log[i]` consecutive copies of `i`.  The
array starts as the allocation garbage `g`. -/
def sort_y_fillAux (hl : ℕ → ℤ) (g : ℤ → ℤ) : ℕ → (ℤ → ℤ) × ℤ
  | 0 => (g, 1)
  | m + 1 =>
    let p := sort_y_fillAux hl g m
    (fun r => if p.2 ≤ r ∧ r < p.2 + hl m then (m : ℤ) else p.1 r, p.2 + max (hl m) 0)

/-- `sort_y` after line 161: the filled array, with `sort_y[0] = 0`. -/
def sort_y (hl : ℕ → ℤ) (hbc : ℕ) (g : ℤ → ℤ) : ℤ → ℤ :=
  fun r => if r = 0 then 0 else (sort_y_fillAux hl g hbc).1 r

/-- `Haleq` (lines 37–63): recursive median-cut equalization.  `y` is
the rank-to-value array, `h` the cumulative histogram, `A` the anchor
array being written.  All C `int` divisions and the `(int)(le + 0.5f)`
roundings are `Int.tdiv` (the float values involved are exact
half-integers).  The recursion stops expanding once `level > 5`. -/
def Haleq (y h A : ℤ → ℤ) (left right : ℤ) (level : ℕ) (il ir : ℤ) : ℤ → ℤ :=
  let l := Int.tdiv (left + right) 2
  let numLeft := if 0 < left then h (left - 1) else 0
  let pnum := h right - numLeft
  let e := y (numLeft + Int.tdiv pnum 2)
  let leT : ℤ := if e ≠ 0 then e + l else 2 * l
  let rle : ℤ := Int.tdiv (leT + 1) 2
  let index := Int.tdiv (il + ir) 2
  let A1 : ℤ → ℤ := fun j => if j = index then rle else A j
  if 5 < level then A1
  else
    let A2 := Haleq y h A1 left rle (level + 1) il index
    Haleq y h A2 (rle + 1) right (level + 1) (index + 1) ir
termination_by 6 - level
decreasing_by all_goals omega

/-- Fuel-indexed variant of `Haleq`, returning `none` when the fuel is
exhausted; used to state that the recursion has depth at most 7
(7 levels `0..6`: recursion happens only while `level ≤ 5`). -/
def HaleqFuel : ℕ → (ℤ → ℤ) → (ℤ → ℤ) → (ℤ → ℤ) → ℤ → ℤ → ℕ → ℤ → ℤ → Option (ℤ → ℤ)
  | 0, _, _, _, _, _, _, _, _ => none
  | fuel + 1, y, h, A, left, right, level, il, ir =>
    let l := Int.tdiv (left + right) 2
    let numLeft := if 0 < left then h (left - 1) else 0
    let pnum := h right - numLeft
    let e := y (numLeft + Int.tdiv pnum 2)
    let leT : ℤ := if e ≠ 0 then e + l else 2 * l
    let rle : ℤ := Int.tdiv (leT + 1) 2
    let index := Int.tdiv (il + ir) 2
    let A1 : ℤ → ℤ := fun j => if j = index then rle else A j
    if 5 < level then some A1
    else
      match HaleqFuel fuel y h A1 left rle (level + 1) il index with
      | none => none
      | some A2 => HaleqFuel fuel y h A2 (rle + 1) right (level + 1) (index + 1) ir

/-- Lines 172–173: the anchor endpoints are forced to
`map_leq_index[255] = hist_bin_count` and `map_leq_index[0] = 0`. -/
def map_leq_forced (A : ℤ → ℤ) (hbcZ : ℤ) : ℤ → ℤ :=
  fun j => if j = 0 then 0 else if j = 255 then hbcZ else A j

/-- One iteration (index `i`) of the repair loop of lines 175–180:
even interior indices are replaced by the average of their neighbours,
then every index is clamped up to its predecessor. -/
def repairStep (A : ℤ → ℤ) (i : ℕ) : ℤ → ℤ :=
  let A1 : ℤ → ℤ :=
    if i % 2 = 0 then
      fun j => if j = (i : ℤ) then Int.tdiv (A ((i : ℤ) - 1) + A ((i : ℤ) + 1)) 2 else A j
    else A
  if A1 (i : ℤ) < A1 ((i : ℤ) - 1) then
    fun j => if j = (i : ℤ) then A1 ((i : ℤ) - 1) else A1 j
  else A1

/-- The repair loop after processing indices `1, …, n`. -/
def repairAux (A : ℤ → ℤ) : ℕ → (ℤ → ℤ)
  | 0 => A
  | n + 1 => repairStep (repairAux A n) (n + 1)

/-- The repaired anchor table (loop `i = 1 … 254` of lines 175–180). -/
def map_leq_repair (A : ℤ → ℤ) : ℤ → ℤ := repairAux A 254

/-- The expansion loop of lines 182–188 after processing anchors
`0, …, n-1`: each anchor interval `[leq[i], leq[i+1])` is filled with
the constant `i`.  `m` is the allocation garbage of the
`map_index_leq` array. -/
def expandAux (leq : ℤ → ℤ) (m : ℤ → ℚ) : ℕ → (ℤ → ℚ)
  | 0 => m
  | n + 1 => fun k =>
    if leq (n : ℤ) ≤ k ∧ k < leq ((n : ℤ) + 1) then (n : ℚ) else expandAux leq m n k

/-- `map_index_leq` after the full expansion loop (`i = 0 … 254`). -/
def map_index_leq (leq : ℤ → ℤ) (m : ℤ → ℚ) : ℤ → ℚ := expandAux leq m 255

/-- `Block_split_haleq` (lines 65–199).  Parameters: the block
histogram `hist`, `hist_bin_count` `hbc`, the block pixel count, the
destination offset `block_start_index`, the log-compression index map
`mil` (output of the float phase, see the header), the allocation
garbage of `map_leq_index` (`gA`), `sort_y` (`gY`) and
`map_index_leq` (`gM`), and the current curve table `tbl`.  Returns
the updated curve table: entry `bsi + i` becomes
`map_index_leq[map_index_log[i]] / 255`. -/
def Block_split_haleq (hist : ℕ → ℤ) (hbc : ℕ) (pixel_num : ℤ) (bsi : ℤ) (mil : ℕ → ℕ)
    (gA gY : ℤ → ℤ) (gM : ℤ → ℚ) (tbl : ℤ → ℚ) : ℤ → ℚ :=
  let ymax := yMaxB hist hbc
  let hl := hist_log hist mil hbc
  let y := sort_y hl hbc gY
  let A := Haleq y (cumlog hl) gA 0 ((hbc : ℤ) - 1) 0 0 255
  let R := map_leq_repair (map_leq_forced A (hbc : ℤ))
  let M := map_index_leq R gM
  fun n =>
    if bsi ≤ n ∧ n < bsi + (hbc : ℤ)
    then M ((map_index_log_ext mil ymax ((n - bsi).toNat) : ℕ) : ℤ) / 255
    else tbl n

/-- `block_start_index = (block_row * block_factor + block_col) *
hist_bin_count` of line 238 (`block_factor = 4`). -/
def blockStartIndexM (hbc br bc : ℕ) : ℤ := ((br * 4 + bc) * hbc : ℕ)

/-- `height_per_block = stats_height / block_factor` (line 228). -/
def hpbM (H : ℕ) : ℕ := H / 4

/-- `height_last_block = height_per_block + stats_height % block_factor`
(line 229). -/
def hlastM (H : ℕ) : ℕ := H / 4 + H % 4

/-- The `start_index` of line 239 as actually computed by the code:
`height_per_block` is overwritten with `height_last_block` during the
first column iteration of the last block row (line 246–249), so for
`block_row = 3, block_col ≥ 1` the code computes
`3 * height_last_block * width + block_col * width_per_block`. -/
def startIndexM (H W br bc : ℕ) : ℕ :=
  (if br = 3 ∧ 1 ≤ bc then 3 * hlastM H * W else br * hpbM H * W) + bc * (W / 4)

/-- The number of statistics rows the histogram loop of lines 252–259
visits for a block in row `br` (after the line 246–249 mutation). -/
def heightUsedM (H br : ℕ) : ℕ := if br = 3 then hlastM H else hpbM H

/-- Whether the histogram accumulation for block `(br, bc)` reads the
statistics cell with linear index `idx` (loop of lines 252–259,
`start_index + i * width + j`). -/
def blockReadsB (H W br bc idx : ℕ) : Bool :=
  (List.range (heightUsedM H br)).any fun i =>
    (List.range (W / 4)).any fun j => idx = startIndexM H W br bc + i * W + j

/-- C3: the orchestrator's block partition is broken for statistics
heights not divisible by 4.  At grid height 7 and width 8
(`height_per_block = 1`, `height_last_block = 4`,
`width_per_block = 2`): block `(3,1)` reads the linear cell index
`3*4*8 + 2 = 98`, which is past the end of the `7*8 = 56`-cell grid
(because `height_per_block` was overwritten with `height_last_block`
in the `(3,0)` iteration before `start_index` is recomputed), and the
in-grid cell `26` (row 3, column 2) is read by no block at all — so
not every statistics row/cell belongs to exactly one block. -/
theorem C3_partition_bug :
    blockReadsB 7 8 3 1 98 = true
    ∧ 7 * 8 ≤ 98
    ∧ (∀ br, br < 4 → ∀ bc, bc < 4 → blockReadsB 7 8 br bc 26 = false) := by
  refine ⟨by decide, by norm_num, by decide⟩

/-- C9: each `Block_split_haleq` call changes the curve table only at
indices in `[block_start_index, block_start_index + hist_bin_count)`,
and the regions of any two distinct blocks of the 4×4 grid (with
`block_start_index = (block_row*4 + block_col) * hist_bin_count`) are
pairwise disjoint. -/
theorem C9_disjoint_writes (hist : ℕ → ℤ) (hbc : ℕ) (pn bsi : ℤ) (mil : ℕ → ℕ)
    (gA gY : ℤ → ℤ) (gM : ℤ → ℚ) (tbl : ℤ → ℚ) :
    (∀ n : ℤ, n < bsi ∨ bsi + (hbc : ℤ) ≤ n →
      Block_split_haleq hist hbc pn bsi mil gA gY gM tbl n = tbl n)
    ∧ (∀ br bc br2 bc2 : ℕ, br < 4 → bc < 4 → br2 < 4 → bc2 < 4 →
        (br, bc) ≠ (br2, bc2) → ∀ n : ℤ,
        ¬((blockStartIndexM hbc br bc ≤ n ∧ n < blockStartIndexM hbc br bc + (hbc : ℤ))
          ∧ (blockStartIndexM hbc br2 bc2 ≤ n ∧
              n < blockStartIndexM hbc br2 bc2 + (hbc : ℤ)))) := by
  constructor
  · intro n hn
    simp only [Block_split_haleq]
    rw [if_neg (by omega)]
  · intro br bc br2 bc2 h1 h2 h3 h4 hne n
    rintro ⟨⟨ha1, ha2⟩, hb1, hb2⟩
    simp only [blockStartIndexM] at ha1 ha2 hb1 hb2
    have hne2 : ¬(br = br2 ∧ bc = bc2) := by
      rintro ⟨e1, e2⟩
      exact hne (by rw [e1, e2])
    have hbne : br * 4 + bc ≠ br2 * 4 + bc2 := by omega
    have k1 : (br2 * 4 + bc2) * hbc < (br * 4 + bc + 1) * hbc := by
      have hz : ((br2 * 4 + bc2) * hbc : ℤ) < ((br * 4 + bc + 1) * hbc : ℤ) := by
        push_cast at ha2 hb1 ⊢
        nlinarith [ha2, hb1]
      exact_mod_cast hz
    have k2 : (br * 4 + bc) * hbc < (br2 * 4 + bc2 + 1) * hbc := by
      have hz : ((br * 4 + bc) * hbc : ℤ) < ((br2 * 4 + bc2 + 1) * hbc : ℤ) := by
        push_cast at hb2 ha1 ⊢
        nlinarith [hb2, ha1]
      exact_mod_cast hz
    have k3 : br2 * 4 + bc2 < br * 4 + bc + 1 :=
      lt_of_mul_lt_mul_right k1 (Nat.zero_le hbc)
    have k4 : br * 4 + bc < br2 * 4 + bc2 + 1 :=
      lt_of_mul_lt_mul_right k2 (Nat.zero_le hbc)
    omega

/-- Witness for C9: with `hist_bin_count = 4` and
`block_start_index = 0`, the table is unchanged at index `-1`. -/
theorem C9_disjoint_writes_witness :
    Block_split_haleq (fun _ => 0) 4 16 0 (fun _ => 0) (fun _ => 0) (fun _ => 0)
      (fun _ => 0) (fun _ => 0) (-1) = (fun _ : ℤ => (0 : ℚ)) (-1) :=
  (C9_disjoint_writes (fun _ => 0) 4 16 0 (fun _ => 0) (fun _ => 0) (fun _ => 0)
    (fun _ => 0) (fun _ => 0)).1 (-1) (by norm_num)

lemma HaleqFuel_complete :
    ∀ (fuel : ℕ) (y h A : ℤ → ℤ) (left right : ℤ) (level : ℕ) (il ir : ℤ),
      6 - level < fuel →
      HaleqFuel fuel y h A left right level il ir
        = some (Haleq y h A left right level il ir) := by
  intro fuel
  induction fuel with
  | zero => intro _ _ _ _ _ _ _ _ hf; omega
  | succ fuel ih =>
    intro y h A left right level il ir hf
    rw [Haleq]
    simp only [HaleqFuel]
    by_cases hl : 5 < level
    · simp only [if_pos hl]
    · simp only [if_neg hl]
      have h1 : 6 - (level + 1) < fuel := by omega
      simp only [ih _ _ _ _ _ _ _ _ h1]

/-- C5: `Haleq` terminates on every input with recursion depth at most
7: each recursive call increases `level` by exactly one and recursion
happens only while `level ≤ 5` (a call with `level > 5` writes its
anchor and returns), so the fuel-indexed variant already succeeds with
fuel 7 and computes the (total) recursive function. -/
theorem C5_Haleq_total (y h A : ℤ → ℤ) (left right : ℤ) (level : ℕ) (il ir : ℤ) :
    HaleqFuel 7 y h A left right level il ir
      = some (Haleq y h A left right level il ir) :=
  HaleqFuel_complete 7 y h A left right level il ir (by omega)

/-! Properties of the repair and expansion passes. -/

lemma repairStep_ne (A : ℤ → ℤ) (i : ℕ) (j : ℤ) (hne : j ≠ (i : ℤ)) :
    repairStep A i j = A j := by
  simp only [repairStep, apply_ite (fun f : ℤ → ℤ => f j)]
  split_ifs <;> simp [hne]

lemma repairAux_stable (A : ℤ → ℤ) :
    ∀ (n : ℕ) (j : ℤ), (∀ i : ℕ, 1 ≤ i → i ≤ n → (i : ℤ) ≠ j) →
      repairAux A n j = A j := by
  intro n
  induction n with
  | zero => intro j _; rfl
  | succ n ih =>
    intro j hj
    rw [repairAux, repairStep_ne]
    · exact ih j (fun i h1 h2 => hj i h1 (by omega))
    · exact fun h => hj (n + 1) (by omega) (le_refl _) h.symm

lemma map_leq_repair_zero (A : ℤ → ℤ) (z : ℤ) :
    map_leq_repair (map_leq_forced A z) 0 = 0 := by
  rw [map_leq_repair, repairAux_stable]
  · rfl
  · intro i h1 _
    omega

lemma map_leq_repair_top (A : ℤ → ℤ) (z : ℤ) :
    map_leq_repair (map_leq_forced A z) 255 = z := by
  rw [map_leq_repair, repairAux_stable]
  · rw [map_leq_forced]
    norm_num
  · intro i h1 h2
    omega

/-- The last anchor index `n ≤ 254` whose (repaired) cut point is at
most `k`; by the last-writer-wins semantics of the expansion loop this
is the value `map_index_leq` ends up holding at `k`. -/
def leqSel (R : ℤ → ℤ) (k : ℤ) : ℕ := Nat.findGreatest (fun n => R (n : ℤ) ≤ k) 254

lemma expandAux_eq_of_writer (R : ℤ → ℤ) (g : ℤ → ℚ) (k : ℤ) (n : ℕ)
    (hw : R (n : ℤ) ≤ k ∧ k < R ((n : ℤ) + 1)) :
    ∀ m : ℕ, n < m →
      (∀ j : ℕ, n < j → j < m → ¬(R (j : ℤ) ≤ k ∧ k < R ((j : ℤ) + 1))) →
      expandAux R g m k = (n : ℚ) := by
  intro m
  induction m with
  | zero => intro h _; omega
  | succ m ihm =>
    intro hnm hnw
    rcases Nat.lt_succ_iff_lt_or_eq.mp hnm with h | h
    · have hcond : ¬(R (m : ℤ) ≤ k ∧ k < R ((m : ℤ) + 1)) :=
        hnw m h (Nat.lt_succ_self m)
      simp only [expandAux]
      rw [if_neg hcond]
      exact ihm h (fun j hj1 hj2 => hnw j hj1 (hj2.trans (Nat.lt_succ_self m)))
    · subst h
      simp only [expandAux]
      rw [if_pos hw]

lemma leqSel_spec (R : ℤ → ℤ) (k : ℤ) (h0 : R 0 = 0) (hk : 0 ≤ k) :
    R (leqSel R k : ℤ) ≤ k ∧ leqSel R k ≤ 254 ∧
      ∀ j : ℕ, leqSel R k < j → j ≤ 254 → ¬R (j : ℤ) ≤ k := by
  have hle : leqSel R k ≤ 254 := by rw [leqSel]; exact Nat.findGreatest_le 254
  have hP0 : R ((0 : ℕ) : ℤ) ≤ k := by rw [Nat.cast_zero, h0]; exact hk
  refine ⟨?_, hle, ?_⟩
  · exact @Nat.findGreatest_spec 0 (fun n : ℕ => R (n : ℤ) ≤ k) _ 254 (Nat.zero_le 254) hP0
  · intro j h1 h2
    exact @Nat.findGreatest_is_greatest j (fun n : ℕ => R (n : ℤ) ≤ k) _ 254 h1 h2

lemma map_index_leq_char (R : ℤ → ℤ) (g : ℤ → ℚ) (k : ℤ)
    (h0 : R 0 = 0) (hk0 : 0 ≤ k) (hk255 : k < R 255) :
    map_index_leq R g k = (leqSel R k : ℚ) := by
  obtain ⟨hP, hle, hmax⟩ := leqSel_spec R k h0 hk0
  rw [map_index_leq]
  apply expandAux_eq_of_writer
  · refine ⟨hP, ?_⟩
    rcases eq_or_lt_of_le hle with he | hlt
    · rw [he]
      have h255 : ((254 : ℕ) : ℤ) + 1 = 255 := by norm_num
      rw [h255]
      exact hk255
    · have h2 := hmax (leqSel R k + 1) (Nat.lt_succ_self _) (by omega)
      push_neg at h2
      have hc : ((leqSel R k + 1 : ℕ) : ℤ) = (leqSel R k : ℤ) + 1 := by push_cast; ring
      rw [hc] at h2
      exact h2
  · omega
  · intro j hj1 hj2
    rintro ⟨hjle, -⟩
    exact hmax j hj1 (by omega) hjle

lemma leqSel_mono (R : ℤ → ℤ) (k k2 : ℤ) (h0 : R 0 = 0) (hk0 : 0 ≤ k) (hk : k ≤ k2) :
    leqSel R k ≤ leqSel R k2 := by
  by_contra hc
  push_neg at hc
  obtain ⟨hP, hle, -⟩ := leqSel_spec R k h0 hk0
  have hc2 : Nat.findGreatest (fun n => R (n : ℤ) ≤ k2) 254 < leqSel R k := hc
  have h2 := Nat.findGreatest_is_greatest hc2 hle
  exact h2 (hP.trans hk)

lemma yMaxScan_lt (hist : ℕ → ℤ) : ∀ n : ℕ, 1 ≤ n → yMaxScan hist n < n := by
  intro n
  induction n with
  | zero => omega
  | succ n ih =>
    intro _
    rw [yMaxScan]
    split
    · omega
    · rcases Nat.eq_zero_or_pos n with h | h
      · subst h
        simp [yMaxScan]
      · exact Nat.lt_succ_of_lt (ih h)

lemma map_index_log_ext_lt (mil : ℕ → ℕ) (hist : ℕ → ℤ) (hbc : ℕ) (hhbc : 1 ≤ hbc)
    (hmil : ∀ i, i < hbc → mil i < hbc) (i : ℕ) (hi : i < hbc) :
    map_index_log_ext mil (yMaxB hist hbc) i < hbc := by
  have hy := yMaxScan_lt hist hbc hhbc
  rw [map_index_log_ext, yMaxB]
  split
  · exact hmil i hi
  · exact hmil (yMaxScan hist hbc + 1 - 1) (by omega)

lemma map_index_log_ext_mono (mil : ℕ → ℕ) (hist : ℕ → ℤ) (hbc : ℕ) (hhbc : 1 ≤ hbc)
    (hmono : ∀ i j, i ≤ j → j < hbc → mil i ≤ mil j)
    (i j : ℕ) (hij : i ≤ j) (hj : j < hbc) :
    map_index_log_ext mil (yMaxB hist hbc) i ≤ map_index_log_ext mil (yMaxB hist hbc) j := by
  have hy := yMaxScan_lt hist hbc hhbc
  rw [map_index_log_ext, map_index_log_ext, yMaxB]
  split_ifs with h1 h2 h2
  · exact hmono i j hij hj
  · exact hmono i (yMaxScan hist hbc + 1 - 1) (by omega) (by omega)
  · omega
  · exact le_refl _

/-- C1: monotonicity of the produced tone curve.  For every block
histogram, every pixel count, every anchor/array allocation garbage,
and every log-compression index map `mil` that is monotone
non-decreasing with values in `[0, hist_bin_count)` (the properties
the float log-compression phase establishes), the curve values written
by `Block_split_haleq` are non-decreasing in the input level: for
levels `i < j < hist_bin_count`, the entry at `block_start_index + i`
is at most the entry at `block_start_index + j`. -/
theorem C1_curve_monotone (hist : ℕ → ℤ) (hbc : ℕ) (pn bsi : ℤ) (mil : ℕ → ℕ)
    (gA gY : ℤ → ℤ) (gM : ℤ → ℚ) (tbl : ℤ → ℚ)
    (hmil : ∀ i, i < hbc → mil i < hbc)
    (hmono : ∀ i j, i ≤ j → j < hbc → mil i ≤ mil j)
    (i j : ℕ) (hij : i < j) (hj : j < hbc) :
    Block_split_haleq hist hbc pn bsi mil gA gY gM tbl (bsi + (i : ℤ))
      ≤ Block_split_haleq hist hbc pn bsi mil gA gY gM tbl (bsi + (j : ℤ)) := by
  have hhbc : 1 ≤ hbc := by omega
  have hjz : (j : ℤ) < (hbc : ℤ) := by exact_mod_cast hj
  have hiz : (i : ℤ) < (hbc : ℤ) := by
    have : i < hbc := by omega
    exact_mod_cast this
  simp only [Block_split_haleq]
  rw [if_pos (by constructor <;> omega), if_pos (by constructor <;> omega)]
  have htoi : (bsi + (i : ℤ) - bsi).toNat = i := by omega
  have htoj : (bsi + (j : ℤ) - bsi).toNat = j := by omega
  rw [htoi, htoj]
  rw [map_index_leq_char, map_index_leq_char]
  rotate_left
  · exact map_leq_repair_zero _ _
  · exact Int.ofNat_nonneg _
  · rw [map_leq_repair_top]
    first
    | exact_mod_cast map_index_log_ext_lt mil hist hbc hhbc hmil i (by omega)
    | exact_mod_cast map_index_log_ext_lt mil hist hbc hhbc hmil j hj
  · exact map_leq_repair_zero _ _
  · exact Int.ofNat_nonneg _
  · rw [map_leq_repair_top]
    first
    | exact_mod_cast map_index_log_ext_lt mil hist hbc hhbc hmil i (by omega)
    | exact_mod_cast map_index_log_ext_lt mil hist hbc hhbc hmil j hj
  have hsel := leqSel_mono
    (map_leq_repair (map_leq_forced
      (Haleq (sort_y (hist_log hist mil hbc) hbc gY) (cumlog (hist_log hist mil hbc))
        gA 0 ((hbc : ℤ) - 1) 0 0 255) (hbc : ℤ)))
    ((map_index_log_ext mil (yMaxB hist hbc) i : ℕ) : ℤ)
    ((map_index_log_ext mil (yMaxB hist hbc) j : ℕ) : ℤ)
    (map_leq_repair_zero _ _) (Int.ofNat_nonneg _)
    (by exact_mod_cast map_index_log_ext_mono mil hist hbc hhbc hmono i j hij.le hj)
  gcongr

lemma map_index_leq_div_unit (R : ℤ → ℤ) (g : ℤ → ℚ) (k : ℤ)
    (h0 : R 0 = 0) (hk0 : 0 ≤ k) (hk255 : k < R 255) :
    0 ≤ map_index_leq R g k / 255 ∧ map_index_leq R g k / 255 ≤ 1 := by
  rw [map_index_leq_char R g k h0 hk0 hk255]
  have hle : leqSel R k ≤ 254 := by rw [leqSel]; exact Nat.findGreatest_le 254
  have hleQ : ((leqSel R k : ℕ) : ℚ) ≤ 254 := by exact_mod_cast hle
  constructor
  · positivity
  · rw [div_le_one (by norm_num : (0 : ℚ) < 255)]
    linarith

/-- C7: every value `Block_split_haleq` writes into the curve table
lies in `[0, 1]`: each written entry is `i / 255` for some anchor
index `i ∈ [0, 254]` selected by the expansion loop.  The
log-compression index map `mil` is assumed bounded by
`hist_bin_count`, as the float log phase guarantees. -/
theorem C7_curve_in_unit (hist : ℕ → ℤ) (hbc : ℕ) (pn bsi : ℤ) (mil : ℕ → ℕ)
    (gA gY : ℤ → ℤ) (gM : ℤ → ℚ) (tbl : ℤ → ℚ)
    (hmil : ∀ i, i < hbc → mil i < hbc)
    (i : ℕ) (hi : i < hbc) :
    0 ≤ Block_split_haleq hist hbc pn bsi mil gA gY gM tbl (bsi + (i : ℤ))
    ∧ Block_split_haleq hist hbc pn bsi mil gA gY gM tbl (bsi + (i : ℤ)) ≤ 1 := by
  have hhbc : 1 ≤ hbc := by omega
  have hiz : (i : ℤ) < (hbc : ℤ) := by exact_mod_cast hi
  simp only [Block_split_haleq]
  rw [if_pos (by constructor <;> omega)]
  have htoi : (bsi + (i : ℤ) - bsi).toNat = i := by omega
  rw [htoi]
  exact map_index_leq_div_unit _ _ _ (map_leq_repair_zero _ _) (Int.ofNat_nonneg _)
    (by rw [map_leq_repair_top]
        exact_mod_cast map_index_log_ext_lt mil hist hbc hhbc hmil i hi)

/-- Witness for C1 at `hist_bin_count = 2`, the zero histogram, the
constant-zero index map, levels `0 < 1`. -/
theorem C1_curve_monotone_witness :
    Block_split_haleq (fun _ => 0) 2 0 0 (fun _ => 0) (fun _ => 0) (fun _ => 0)
      (fun _ => 0) (fun _ => 0) (0 + ((0 : ℕ) : ℤ))
      ≤ Block_split_haleq (fun _ => 0) 2 0 0 (fun _ => 0) (fun _ => 0) (fun _ => 0)
        (fun _ => 0) (fun _ => 0) (0 + ((1 : ℕ) : ℤ)) :=
  C1_curve_monotone (fun _ => 0) 2 0 0 (fun _ => 0) (fun _ => 0) (fun _ => 0)
    (fun _ => 0) (fun _ => 0) (fun _ _ => by simp)
    (fun _ _ _ _ => le_refl 0) 0 1 (by omega) (by omega)

/-- Witness for C7 at `hist_bin_count = 2`, level 0. -/
theorem C7_curve_in_unit_witness :
    0 ≤ Block_split_haleq (fun _ => 0) 2 0 0 (fun _ => 0) (fun _ => 0) (fun _ => 0)
      (fun _ => 0) (fun _ => 0) (0 + ((0 : ℕ) : ℤ)) :=
  (C7_curve_in_unit (fun _ => 0) 2 0 0 (fun _ => 0) (fun _ => 0) (fun _ => 0)
    (fun _ => 0) (fun _ => 0) (fun _ _ => by simp) 0 (by omega)).1

/-! Arithmetic facts about the C truncating division by 2. -/

lemma tdiv_mid_bounds (a b : ℤ) :
    min a b ≤ b + Int.tdiv (a - b) 2 ∧ b + Int.tdiv (a - b) 2 ≤ max a b := by
  rcases le_or_lt b a with h | h
  · rw [Int.tdiv_eq_ediv (by omega) (by norm_num)]
    constructor
    · rw [min_eq_right h]; omega
    · rw [max_eq_left h]; omega
  · have hab : a - b = -(b - a) := by ring
    rw [hab, Int.neg_tdiv, Int.tdiv_eq_ediv (by omega) (by norm_num)]
    constructor
    · rw [min_eq_left h.le]; omega
    · rw [max_eq_right h.le]; omega

lemma l_val_bounds (left right hbcZ : ℤ) (h1 : 0 ≤ left) (h2 : left ≤ hbcZ)
    (h3 : 0 ≤ right) (h4 : right ≤ hbcZ - 1) :
    0 ≤ Int.tdiv (left + right) 2 ∧ Int.tdiv (left + right) 2 ≤ hbcZ - 1 := by
  rw [Int.tdiv_eq_ediv (by omega) (by norm_num)]
  omega

lemma rle_bounds (e l hbcZ : ℤ) (he0 : 0 ≤ e) (he1 : e < hbcZ) (hl0 : 0 ≤ l)
    (hl1 : l ≤ hbcZ - 1) :
    0 ≤ Int.tdiv ((if e ≠ 0 then e + l else 2 * l) + 1) 2 ∧
      Int.tdiv ((if e ≠ 0 then e + l else 2 * l) + 1) 2 ≤ hbcZ - 1 := by
  split_ifs with h
  · rw [Int.tdiv_eq_ediv (by omega) (by norm_num)]
    omega
  · rw [Int.tdiv_eq_ediv (by omega) (by norm_num)]
    omega

/-! The call tree of `Haleq` from the root `(il, ir) = (0, 255)` only
visits anchor index ranges of an exact dyadic shape: at recursion
level `ℓ ≤ 6`, the range is `[il, il + 2^(8-ℓ) - 1]` with `il`
even and non-negative. -/

def HaleqShape (level : ℕ) (il ir : ℤ) : Prop :=
  level ≤ 6 ∧ 0 ≤ il ∧ 2 ∣ il ∧ ir = il + 2 ^ (8 - level) - 1

lemma shape_index (level : ℕ) (il ir : ℤ) (hs : HaleqShape level il ir) :
    Int.tdiv (il + ir) 2 = il + 2 ^ (8 - level - 1) - 1 := by
  obtain ⟨h6, h0, hdvd, hir⟩ := hs
  have hsplit : (8 : ℕ) - level = (8 - level - 1) + 1 := by omega
  have hp : (2 : ℤ) ^ (8 - level) = 2 * 2 ^ (8 - level - 1) := by
    conv_lhs => rw [hsplit]
    rw [pow_succ]; ring
  have hppos : (0 : ℤ) < 2 ^ (8 - level - 1) := by positivity
  rw [Int.tdiv_eq_ediv (by omega) (by norm_num)]
  omega

lemma shape_index_mem (level : ℕ) (il ir : ℤ) (hs : HaleqShape level il ir) :
    il ≤ Int.tdiv (il + ir) 2 ∧ Int.tdiv (il + ir) 2 ≤ ir - 1 ∧ 0 ≤ il ∧ ir ≤ il + 255 := by
  have hi := shape_index level il ir hs
  obtain ⟨h6, h0, hdvd, hir⟩ := hs
  have hsplit : (8 : ℕ) - level = (8 - level - 1) + 1 := by omega
  have hp : (2 : ℤ) ^ (8 - level) = 2 * 2 ^ (8 - level - 1) := by
    conv_lhs => rw [hsplit]
    rw [pow_succ]; ring
  have hppos : (0 : ℤ) < 2 ^ (8 - level - 1) := by positivity
  have hle : (2 : ℤ) ^ (8 - level) ≤ 2 ^ 8 := by
    apply pow_le_pow_right₀ (by norm_num)
    omega
  refine ⟨by omega, by omega, h0, by norm_num at hle; omega⟩

lemma shape_left (level : ℕ) (il ir : ℤ) (hs : HaleqShape level il ir) (hlev : level ≤ 5) :
    HaleqShape (level + 1) il (Int.tdiv (il + ir) 2) := by
  have hi := shape_index level il ir hs
  obtain ⟨h6, h0, hdvd, hir⟩ := hs
  refine ⟨by omega, h0, hdvd, ?_⟩
  rw [hi]
  have he : (8 : ℕ) - (level + 1) = 8 - level - 1 := by omega
  rw [he]

lemma shape_right (level : ℕ) (il ir : ℤ) (hs : HaleqShape level il ir) (hlev : level ≤ 5) :
    HaleqShape (level + 1) (Int.tdiv (il + ir) 2 + 1) ir := by
  have hi := shape_index level il ir hs
  obtain ⟨h6, h0, hdvd, hir⟩ := hs
  have hsplit : (8 : ℕ) - level = (8 - level - 1) + 1 := by omega
  have hp : (2 : ℤ) ^ (8 - level) = 2 * 2 ^ (8 - level - 1) := by
    conv_lhs => rw [hsplit]
    rw [pow_succ]; ring
  have hppos : (0 : ℤ) < 2 ^ (8 - level - 1) := by positivity
  have he : (8 : ℕ) - (level + 1) = 8 - level - 1 := by omega
  refine ⟨by omega, by omega, ?_, ?_⟩
  · rw [hi]
    have h2 : il + 2 ^ (8 - level - 1) - 1 + 1 = il + 2 ^ (8 - level - 1) := by ring
    rw [h2]
    exact dvd_add hdvd (dvd_pow_self 2 (by omega))
  · rw [hi, he]
    omega

/-- Writes of a `Haleq` call stay inside its anchor index range: at
any index outside `[il, ir - 1]` the anchor array is unchanged. -/
lemma Haleq_frame :
    ∀ (d level : ℕ), 6 - level ≤ d →
      ∀ (y h A : ℤ → ℤ) (left right il ir j : ℤ),
      HaleqShape level il ir → (j < il ∨ ir ≤ j) →
      Haleq y h A left right level il ir j = A j := by
  intro d
  induction d with
  | zero =>
    intro level h6 y h A left right il ir j hs hj
    have hmem := shape_index_mem level il ir hs
    have hlev : 5 < level := by
      rcases hs with ⟨hl6, -, -, -⟩
      omega
    rw [Haleq]
    simp only [if_pos hlev]
    exact if_neg (by omega)
  | succ d ih =>
    intro level h6 y h A left right il ir j hs hj
    have hmem := shape_index_mem level il ir hs
    by_cases hlev : 5 < level
    · rw [Haleq]
      simp only [if_pos hlev]
      exact if_neg (by omega)
    · have hlev5 : level ≤ 5 := by omega
      rw [Haleq]
      simp only [if_neg hlev]
      rw [ih (level + 1) (by omega) y h _ _ _ _ _ j (shape_right level il ir hs hlev5)
        (by omega)]
      rw [ih (level + 1) (by omega) y h _ _ _ _ _ j (shape_left level il ir hs hlev5)
        (by omega)]
      exact if_neg (by omega)

/-- Leaf case of the write-determinism of `Haleq`: at a level-6 node
(range of size 4) the only odd in-range anchor index is the node's own
write index, whose value depends only on the shared data, not on the
incoming anchor array. -/
lemma Haleq_det_leaf (y1 y2 h A1 A2 : ℤ → ℤ) (hbcZ T left right il ir : ℤ) (level : ℕ)
    (hlev : 5 < level)
    (hcum : ∀ jj : ℤ, 0 ≤ jj → jj < hbcZ → 0 ≤ h jj ∧ h jj ≤ T)
    (hyagree : ∀ r : ℤ, 0 ≤ r → r ≤ T → y1 r = y2 r)
    (hl1 : 0 ≤ left) (hl2 : left ≤ hbcZ) (hr1 : 0 ≤ right) (hr2 : right ≤ hbcZ - 1)
    (hs : HaleqShape level il ir) (j : ℤ) (hj1 : il ≤ j) (hj2 : j ≤ ir - 1)
    (hj3 : j % 2 = 1) :
    Haleq y1 h A1 left right level il ir j = Haleq y2 h A2 left right level il ir j := by
  have hTnn : 0 ≤ T := by
    have := hcum 0 (le_refl 0) (by omega)
    omega
  have ha := hcum right hr1 (by omega)
  have hbB : 0 ≤ (if 0 < left then h (left - 1) else 0)
      ∧ (if 0 < left then h (left - 1) else 0) ≤ T := by
    split_ifs with hlf
    · exact hcum (left - 1) (by omega) (by omega)
    · exact ⟨le_refl 0, hTnn⟩
  have hmid := tdiv_mid_bounds (h right) (if 0 < left then h (left - 1) else 0)
  have hrank : 0 ≤ (if 0 < left then h (left - 1) else 0)
        + Int.tdiv (h right - (if 0 < left then h (left - 1) else 0)) 2
      ∧ (if 0 < left then h (left - 1) else 0)
        + Int.tdiv (h right - (if 0 < left then h (left - 1) else 0)) 2 ≤ T := by
    omega
  have he := hyagree ((if 0 < left then h (left - 1) else 0)
    + Int.tdiv (h right - (if 0 < left then h (left - 1) else 0)) 2) hrank.1 hrank.2
  have hlev6 : level = 6 := by
    rcases hs with ⟨hl6, -, -, -⟩
    omega
  have hidx := shape_index level il ir hs
  have hsz : ir = il + 3 := by
    rcases hs with ⟨-, -, -, hir⟩
    rw [hlev6] at hir
    have h4 : (2 : ℤ) ^ ((8 : ℕ) - 6) = 4 := by norm_num
    omega
  have hidx2 : Int.tdiv (il + ir) 2 = il + 1 := by
    rw [hlev6] at hidx
    have h2 : (2 : ℤ) ^ ((8 : ℕ) - 6 - 1) = 2 := by norm_num
    omega
  have hdvd : 2 ∣ il := hs.2.2.1
  have hjidx : j = Int.tdiv (il + ir) 2 := by omega
  conv_lhs => rw [Haleq]
  conv_rhs => rw [Haleq]
  simp only [if_pos hlev]
  rw [he]
  simp [hjidx]

/-- Write-determinism of `Haleq`: at every odd anchor index inside the
node's range, the result does not depend on the incoming anchor array
contents, nor on the rank array beyond its defined region `[0, T]`
(`T` bounds the cumulative histogram `h`). -/
lemma Haleq_det :
    ∀ (d level : ℕ), 6 - level ≤ d →
      ∀ (y1 y2 h A1 A2 : ℤ → ℤ) (hbcZ T left right il ir : ℤ),
      (∀ jj : ℤ, 0 ≤ jj → jj < hbcZ → 0 ≤ h jj ∧ h jj ≤ T) →
      (∀ r : ℤ, 0 ≤ r → r ≤ T → y1 r = y2 r) →
      (∀ r : ℤ, 0 ≤ r → r ≤ T → 0 ≤ y1 r ∧ y1 r < hbcZ) →
      0 ≤ left → left ≤ hbcZ → 0 ≤ right → right ≤ hbcZ - 1 →
      HaleqShape level il ir →
      ∀ j : ℤ, il ≤ j → j ≤ ir - 1 → j % 2 = 1 →
        Haleq y1 h A1 left right level il ir j
          = Haleq y2 h A2 left right level il ir j := by
  intro d
  induction d with
  | zero =>
    intro level h6 y1 y2 h A1 A2 hbcZ T left right il ir hcum hyagree hyrange
      hl1 hl2 hr1 hr2 hs j hj1 hj2 hj3
    exact Haleq_det_leaf y1 y2 h A1 A2 hbcZ T left right il ir level
      (by rcases hs with ⟨hl6, -, -, -⟩; omega) hcum hyagree hl1 hl2 hr1 hr2 hs j hj1 hj2 hj3
  | succ d ih =>
    intro level h6 y1 y2 h A1 A2 hbcZ T left right il ir hcum hyagree hyrange
      hl1 hl2 hr1 hr2 hs j hj1 hj2 hj3
    by_cases hlev : 5 < level
    · exact Haleq_det_leaf y1 y2 h A1 A2 hbcZ T left right il ir level hlev
        hcum hyagree hl1 hl2 hr1 hr2 hs j hj1 hj2 hj3
    · have hTnn : 0 ≤ T := by
        have := hcum 0 (le_refl 0) (by omega)
        omega
      have ha := hcum right hr1 (by omega)
      have hbB : 0 ≤ (if 0 < left then h (left - 1) else 0)
          ∧ (if 0 < left then h (left - 1) else 0) ≤ T := by
        split_ifs with hlf
        · exact hcum (left - 1) (by omega) (by omega)
        · exact ⟨le_refl 0, hTnn⟩
      have hmid := tdiv_mid_bounds (h right) (if 0 < left then h (left - 1) else 0)
      have hrank : 0 ≤ (if 0 < left then h (left - 1) else 0)
            + Int.tdiv (h right - (if 0 < left then h (left - 1) else 0)) 2
          ∧ (if 0 < left then h (left - 1) else 0)
            + Int.tdiv (h right - (if 0 < left then h (left - 1) else 0)) 2 ≤ T := by
        omega
      have he := hyagree ((if 0 < left then h (left - 1) else 0)
        + Int.tdiv (h right - (if 0 < left then h (left - 1) else 0)) 2) hrank.1 hrank.2
      have hy1r := hyrange ((if 0 < left then h (left - 1) else 0)
        + Int.tdiv (h right - (if 0 < left then h (left - 1) else 0)) 2) hrank.1 hrank.2
      have hlb := l_val_bounds left right hbcZ hl1 hl2 hr1 hr2
      have hrleb := rle_bounds
        (y1 ((if 0 < left then h (left - 1) else 0)
          + Int.tdiv (h right - (if 0 < left then h (left - 1) else 0)) 2))
        (Int.tdiv (left + right) 2) hbcZ hy1r.1 hy1r.2 hlb.1 hlb.2
      have hmem := shape_index_mem level il ir hs
      have hlev5 : level ≤ 5 := by omega
      conv_lhs => rw [Haleq]
      conv_rhs => rw [Haleq]
      simp only [if_neg hlev]
      rw [← he]
      rcases lt_trichotomy j (Int.tdiv (il + ir) 2) with hjc | hjc | hjc
      · rw [Haleq_frame 6 (level + 1) (by omega) y1 h _ _ _ _ _ j
          (shape_right level il ir hs hlev5) (by omega)]
        rw [Haleq_frame 6 (level + 1) (by omega) y2 h _ _ _ _ _ j
          (shape_right level il ir hs hlev5) (by omega)]
        exact ih (level + 1) (by omega) y1 y2 h _ _ hbcZ T left
          (Int.tdiv ((if y1 ((if 0 < left then h (left - 1) else 0)
            + Int.tdiv (h right - (if 0 < left then h (left - 1) else 0)) 2) ≠ 0
            then y1 ((if 0 < left then h (left - 1) else 0)
              + Int.tdiv (h right - (if 0 < left then h (left - 1) else 0)) 2)
              + Int.tdiv (left + right) 2
            else 2 * Int.tdiv (left + right) 2) + 1) 2)
          il (Int.tdiv (il + ir) 2)
          hcum hyagree hyrange hl1 hl2 hrleb.1 (by omega)
          (shape_left level il ir hs hlev5) j hj1 (by omega) hj3
      · rw [Haleq_frame 6 (level + 1) (by omega) y1 h _ _ _ _ _ j
          (shape_right level il ir hs hlev5) (by omega)]
        rw [Haleq_frame 6 (level + 1) (by omega) y2 h _ _ _ _ _ j
          (shape_right level il ir hs hlev5) (by omega)]
        rw [Haleq_frame 6 (level + 1) (by omega) y1 h _ _ _ _ _ j
          (shape_left level il ir hs hlev5) (by omega)]
        rw [Haleq_frame 6 (level + 1) (by omega) y2 h _ _ _ _ _ j
          (shape_left level il ir hs hlev5) (by omega)]
        simp [hjc]
      · exact ih (level + 1) (by omega) y1 y2 h _ _ hbcZ T
          (Int.tdiv ((if y1 ((if 0 < left then h (left - 1) else 0)
            + Int.tdiv (h right - (if 0 < left then h (left - 1) else 0)) 2) ≠ 0
            then y1 ((if 0 < left then h (left - 1) else 0)
              + Int.tdiv (h right - (if 0 < left then h (left - 1) else 0)) 2)
              + Int.tdiv (left + right) 2
            else 2 * Int.tdiv (left + right) 2) + 1) 2 + 1)
          right (Int.tdiv (il + ir) 2 + 1) ir hcum hyagree hyrange
          (by omega) (by omega) hr1 hr2
          (shape_right level il ir hs hlev5) j (by omega) (by omega) hj3

/-! Properties of the `sort_y` fill and the cumulative histogram. -/

lemma sort_y_fillAux_snd (hl : ℕ → ℤ) (g : ℤ → ℤ) :
    ∀ m : ℕ, (sort_y_fillAux hl g m).2 = 1 + ∑ i in Finset.range m, max (hl i) 0 := by
  intro m
  induction m with
  | zero => simp [sort_y_fillAux]
  | succ m ih =>
    simp only [sort_y_fillAux]
    rw [ih, Finset.sum_range_succ]
    ring

lemma sort_y_fillAux_det (hl : ℕ → ℤ) (g1 g2 : ℤ → ℤ) (hnn : ∀ i : ℕ, 0 ≤ hl i) :
    ∀ m : ℕ, ∀ r : ℤ, 1 ≤ r → r < (sort_y_fillAux hl g1 m).2 →
      (sort_y_fillAux hl g1 m).1 r = (sort_y_fillAux hl g2 m).1 r := by
  intro m
  induction m with
  | zero =>
    intro r h1 h2
    simp only [sort_y_fillAux] at h2
    omega
  | succ m ih =>
    intro r h1 h2
    have hs1 := sort_y_fillAux_snd hl g1 m
    have hs2 := sort_y_fillAux_snd hl g2 m
    have hsnd : (sort_y_fillAux hl g1 m).2 = (sort_y_fillAux hl g2 m).2 := by
      rw [hs1, hs2]
    have hmx : max (hl m) 0 = hl m := max_eq_left (hnn m)
    simp only [sort_y_fillAux] at h2 ⊢
    by_cases hcond : (sort_y_fillAux hl g1 m).2 ≤ r ∧ r < (sort_y_fillAux hl g1 m).2 + hl m
    · rw [if_pos hcond, if_pos (by rw [← hsnd]; exact hcond)]
    · rw [if_neg hcond, if_neg (by rw [← hsnd]; exact hcond)]
      apply ih r h1
      rw [hmx] at h2
      omega
  
lemma sort_y_fillAux_range (hl : ℕ → ℤ) (g : ℤ → ℤ) (hnn : ∀ i : ℕ, 0 ≤ hl i) :
    ∀ m : ℕ, ∀ r : ℤ, 1 ≤ r → r < (sort_y_fillAux hl g m).2 →
      0 ≤ (sort_y_fillAux hl g m).1 r ∧ (sort_y_fillAux hl g m).1 r < (m : ℤ) := by
  intro m
  induction m with
  | zero =>
    intro r h1 h2
    simp only [sort_y_fillAux] at h2
    omega
  | succ m ih =>
    intro r h1 h2
    have hmx : max (hl m) 0 = hl m := max_eq_left (hnn m)
    simp only [sort_y_fillAux] at h2 ⊢
    by_cases hcond : (sort_y_fillAux hl g m).2 ≤ r ∧ r < (sort_y_fillAux hl g m).2 + hl m
    · rw [if_pos hcond]
      constructor
      · exact Int.ofNat_nonneg m
      · push_cast
        omega
    · rw [if_neg hcond]
      have hr := ih r h1 (by rw [hmx] at h2; omega)
      constructor
      · exact hr.1
      · push_cast
        push_cast at hr
        omega

lemma sort_y_det (hl : ℕ → ℤ) (hbc : ℕ) (g1 g2 : ℤ → ℤ) (hnn : ∀ i : ℕ, 0 ≤ hl i) :
    ∀ r : ℤ, 0 ≤ r → r ≤ ∑ i in Finset.range hbc, hl i →
      sort_y hl hbc g1 r = sort_y hl hbc g2 r := by
  intro r h0 hT
  rw [sort_y, sort_y]
  by_cases hr : r = 0
  · rw [if_pos hr, if_pos hr]
  · rw [if_neg hr, if_neg hr]
    apply sort_y_fillAux_det hl g1 g2 hnn hbc r (by omega)
    rw [sort_y_fillAux_snd]
    have hmx : ∑ i in Finset.range hbc, max (hl i) 0 = ∑ i in Finset.range hbc, hl i :=
      Finset.sum_congr rfl (fun i _ => max_eq_left (hnn i))
    omega

lemma sort_y_range (hl : ℕ → ℤ) (hbc : ℕ) (g : ℤ → ℤ) (hnn : ∀ i : ℕ, 0 ≤ hl i)
    (hhbc : 1 ≤ hbc) :
    ∀ r : ℤ, 0 ≤ r → r ≤ ∑ i in Finset.range hbc, hl i →
      0 ≤ sort_y hl hbc g r ∧ sort_y hl hbc g r < (hbc : ℤ) := by
  intro r h0 hT
  rw [sort_y]
  by_cases hr : r = 0
  · rw [if_pos hr]
    constructor
    · exact le_refl 0
    · exact_mod_cast hhbc
  · rw [if_neg hr]
    apply sort_y_fillAux_range hl g hnn hbc r (by omega)
    rw [sort_y_fillAux_snd]
    have hmx : ∑ i in Finset.range hbc, max (hl i) 0 = ∑ i in Finset.range hbc, hl i :=
      Finset.sum_congr rfl (fun i _ => max_eq_left (hnn i))
    omega

lemma cumlog_bounds (hl : ℕ → ℤ) (hbc : ℕ) (hnn : ∀ i : ℕ, 0 ≤ hl i) (j : ℤ)
    (h0 : 0 ≤ j) (h1 : j < (hbc : ℤ)) :
    0 ≤ cumlog hl j ∧ cumlog hl j ≤ ∑ i in Finset.range hbc, hl i := by
  rw [cumlog]
  constructor
  · exact Finset.sum_nonneg (fun i _ => hnn i)
  · apply Finset.sum_le_sum_of_subset_of_nonneg
    · apply Finset.range_subset.mpr
      omega
    · exact fun i _ _ => hnn i

lemma hist_log_nonneg (hist : ℕ → ℤ) (mil : ℕ → ℕ) (hbc : ℕ)
    (hh : ∀ i : ℕ, i < hbc → 0 ≤ hist i) (k : ℕ) :
    0 ≤ hist_log hist mil hbc k := by
  apply Finset.sum_nonneg
  intro i hi
  split
  · exact hh i (Finset.mem_range.mp hi)
  · exact le_refl 0

lemma ite_lt_eq_max (a b : ℤ) : (if a < b then b else a) = max a b := by
  rcases lt_or_le a b with h | h
  · rw [if_pos h, max_eq_right h.le]
  · rw [if_neg (not_lt.mpr h), max_eq_left h]

/-- Value of one repair-loop iteration at its own index: the
neighbour-average for even indices (resp. the old value for odd ones),
clamped up to the predecessor. -/
lemma repairStep_at (P : ℤ → ℤ) (i : ℕ) (hi : 1 ≤ i) :
    repairStep P i (i : ℤ) =
      if i % 2 = 0
      then max (Int.tdiv (P ((i : ℤ) - 1) + P ((i : ℤ) + 1)) 2) (P ((i : ℤ) - 1))
      else max (P (i : ℤ)) (P ((i : ℤ) - 1)) := by
  have hne : ((i : ℤ) - 1) ≠ (i : ℤ) := by omega
  simp only [repairStep]
  by_cases hp : i % 2 = 0
  · simp only [if_pos hp, if_neg hne, apply_ite (fun f : ℤ → ℤ => f (i : ℤ)),
      eq_self_iff_true, if_true]
    exact ite_lt_eq_max _ _
  · simp only [if_neg hp, apply_ite (fun f : ℤ → ℤ => f (i : ℤ)),
      eq_self_iff_true, if_true]
    exact ite_lt_eq_max _ _

lemma repairAux_det (B1 B2 : ℤ → ℤ)
    (hodd : ∀ j : ℕ, j ≤ 254 → j % 2 = 1 → B1 (j : ℤ) = B2 (j : ℤ))
    (h0 : B1 0 = B2 0) (h255 : B1 255 = B2 255) :
    ∀ n : ℕ, n ≤ 254 → ∀ j : ℕ, j ≤ 255 →
      (j ≤ n ∨ j % 2 = 1 ∨ j = 0 ∨ j = 255) →
      repairAux B1 n (j : ℤ) = repairAux B2 n (j : ℤ) := by
  intro n
  induction n with
  | zero =>
    intro _ j hj255 hcase
    simp only [repairAux]
    rcases hcase with h | h | h | h
    · have hj0 : j = 0 := by omega
      subst hj0
      exact_mod_cast h0
    · by_cases hj : j = 255
      · subst hj
        exact_mod_cast h255
      · exact hodd j (by omega) h
    · subst h
      exact_mod_cast h0
    · subst h
      exact_mod_cast h255
  | succ n ihn =>
    intro hn254 j hj255 hcase
    simp only [repairAux]
    by_cases hje : j = n + 1
    · subst hje
      rw [repairStep_at _ _ (by omega), repairStep_at _ _ (by omega)]
      have hc1 : ((n + 1 : ℕ) : ℤ) - 1 = ((n : ℕ) : ℤ) := by push_cast; ring
      have hc2 : ((n + 1 : ℕ) : ℤ) + 1 = ((n + 2 : ℕ) : ℤ) := by push_cast; ring
      have e0 : repairAux B1 n ((n : ℕ) : ℤ) = repairAux B2 n ((n : ℕ) : ℤ) :=
        ihn (by omega) n (by omega) (Or.inl (le_refl n))
      by_cases hp : (n + 1) % 2 = 0
      · have e2 : repairAux B1 n ((n + 2 : ℕ) : ℤ) = repairAux B2 n ((n + 2 : ℕ) : ℤ) := by
          apply ihn (by omega) (n + 2) (by omega)
          by_cases h255c : n + 2 = 255
          · exact Or.inr (Or.inr (Or.inr h255c))
          · exact Or.inr (Or.inl (by omega))
        rw [if_pos hp, if_pos hp, hc1, hc2, e0, e2]
      · have e1 : repairAux B1 n ((n + 1 : ℕ) : ℤ) = repairAux B2 n ((n + 1 : ℕ) : ℤ) := by
          apply ihn (by omega) (n + 1) (by omega)
          exact Or.inr (Or.inl (by omega))
        rw [if_neg hp, if_neg hp, hc1, e0, e1]
    · have hne : (j : ℤ) ≠ ((n + 1 : ℕ) : ℤ) := by
        intro hh
        exact hje (by exact_mod_cast hh)
      rw [repairStep_ne _ _ _ hne, repairStep_ne _ _ _ hne]
      apply ihn (by omega) j hj255
      rcases hcase with h | h | h | h
      · exact Or.inl (by omega)
      · exact Or.inr (Or.inl h)
      · exact Or.inr (Or.inr (Or.inl h))
      · exact Or.inr (Or.inr (Or.inr h))

lemma findGreatest_congr (P Q : ℕ → Prop) [DecidablePred P] [DecidablePred Q] :
    ∀ b : ℕ, (∀ n : ℕ, n ≤ b → (P n ↔ Q n)) →
      Nat.findGreatest P b = Nat.findGreatest Q b := by
  intro b
  induction b with
  | zero => intro _; rfl
  | succ b ih =>
    intro hpq
    rw [Nat.findGreatest_succ, Nat.findGreatest_succ]
    by_cases hp : P (b + 1)
    · rw [if_pos hp, if_pos ((hpq (b + 1) (le_refl _)).mp hp)]
    · rw [if_neg hp, if_neg (fun hq => hp ((hpq (b + 1) (le_refl _)).mpr hq))]
      exact ih (fun n hn => hpq n (by omega))

lemma leqSel_congr (R1 R2 : ℤ → ℤ) (k : ℤ)
    (hR : ∀ n : ℕ, n ≤ 254 → R1 (n : ℤ) = R2 (n : ℤ)) :
    leqSel R1 k = leqSel R2 k := by
  rw [leqSel, leqSel]
  exact findGreatest_congr _ _ 254 (fun n hn => by rw [hR n hn])

/-- C4: `Block_split_haleq` is deterministic and has no hidden state:
for identical inputs (histogram, `hist_bin_count`, pixel count,
`block_start_index`, and the log-compression index map, which is a
function of the histogram), the values produced in the curve table are
identical regardless of the allocation garbage initially held by the
256-entry anchor array `map_leq_index`, the `sort_y` array, or the
`map_index_leq` array: every table cell the call can influence is
fully overwritten from the inputs before being read. -/
theorem C4_deterministic (hist : ℕ → ℤ) (hbc : ℕ) (pn bsi : ℤ) (mil : ℕ → ℕ)
    (gA1 gA2 gY1 gY2 : ℤ → ℤ) (gM1 gM2 : ℤ → ℚ) (tbl : ℤ → ℚ)
    (hh : ∀ i : ℕ, i < hbc → 0 ≤ hist i)
    (hmil : ∀ i : ℕ, i < hbc → mil i < hbc)
    (n : ℤ) :
    Block_split_haleq hist hbc pn bsi mil gA1 gY1 gM1 tbl n
      = Block_split_haleq hist hbc pn bsi mil gA2 gY2 gM2 tbl n := by
  simp only [Block_split_haleq]
  by_cases hcond : bsi ≤ n ∧ n < bsi + (hbc : ℤ)
  · rw [if_pos hcond, if_pos hcond]
    have hhbc : 1 ≤ hbc := by
      rcases hcond with ⟨h1, h2⟩
      have : (0 : ℤ) < (hbc : ℤ) := by omega
      exact_mod_cast this
    have hilt : (n - bsi).toNat < hbc := by
      rcases hcond with ⟨h1, h2⟩
      omega
    have hk := map_index_log_ext_lt mil hist hbc hhbc hmil (n - bsi).toNat hilt
    set HL := hist_log hist mil hbc with hHL
    have hlnn : ∀ t : ℕ, 0 ≤ HL t := hist_log_nonneg hist mil hbc hh
    have hshape : HaleqShape 0 0 255 := by
      refine ⟨by omega, le_refl 0, ⟨0, by ring⟩, by norm_num⟩
    have hXodd : ∀ jj : ℤ, 0 ≤ jj → jj ≤ 254 → jj % 2 = 1 →
        Haleq (sort_y HL hbc gY1) (cumlog HL) gA1 0 ((hbc : ℤ) - 1) 0 0 255 jj
          = Haleq (sort_y HL hbc gY2) (cumlog HL) gA2 0 ((hbc : ℤ) - 1) 0 0 255 jj := by
      intro jj hjj0 hjj254 hjjodd
      exact Haleq_det 6 0 (by omega) (sort_y HL hbc gY1) (sort_y HL hbc gY2)
        (cumlog HL) gA1 gA2 (hbc : ℤ) (∑ t in Finset.range hbc, HL t)
        0 ((hbc : ℤ) - 1) 0 255
        (fun jj h1 h2 => cumlog_bounds HL hbc hlnn jj h1 h2)
        (sort_y_det HL hbc gY1 gY2 hlnn)
        (sort_y_range HL hbc gY1 hlnn hhbc)
        (le_refl 0) (by exact_mod_cast Nat.zero_le hbc) (by omega) (by omega)
        hshape jj hjj0 (by omega) hjjodd
    have hRfn : ∀ j : ℕ, j ≤ 255 →
        map_leq_repair (map_leq_forced
          (Haleq (sort_y HL hbc gY1) (cumlog HL) gA1 0 ((hbc : ℤ) - 1) 0 0 255) (hbc : ℤ)) (j : ℤ)
        = map_leq_repair (map_leq_forced
          (Haleq (sort_y HL hbc gY2) (cumlog HL) gA2 0 ((hbc : ℤ) - 1) 0 0 255) (hbc : ℤ)) (j : ℤ) := by
      intro j hj255
      rw [map_leq_repair, map_leq_repair]
      apply repairAux_det
      · intro jj hjj hjjodd
        rw [map_leq_forced, map_leq_forced]
        have hne0 : ((jj : ℕ) : ℤ) ≠ 0 := by omega
        have hne255 : ((jj : ℕ) : ℤ) ≠ 255 := by omega
        rw [if_neg hne0, if_neg hne0, if_neg hne255, if_neg hne255]
        exact hXodd jj (by omega) (by omega) (by omega)
      · rw [map_leq_forced, map_leq_forced]
        norm_num
      · rw [map_leq_forced, map_leq_forced]
        norm_num
      · omega
      · exact hj255
      · omega
    rw [map_index_leq_char, map_index_leq_char]
    rotate_left
    · exact map_leq_repair_zero _ _
    · exact Int.ofNat_nonneg _
    · rw [map_leq_repair_top]
      exact_mod_cast hk
    · exact map_leq_repair_zero _ _
    · exact Int.ofNat_nonneg _
    · rw [map_leq_repair_top]
      exact_mod_cast hk
    rw [leqSel_congr _ _ _ (fun m hm => hRfn m (by omega))]
  · rw [if_neg hcond, if_neg hcond]

/-- Witness for C4: two runs with different garbage in the anchor,
`sort_y` and `map_index_leq` allocations coincide. -/
theorem C4_deterministic_witness :
    Block_split_haleq (fun _ => 1) 2 2 0 (fun _ => 0) (fun _ => 5) (fun _ => 7)
      (fun _ => 9) (fun _ => 0) 0
      = Block_split_haleq (fun _ => 1) 2 2 0 (fun _ => 0) (fun _ => -3) (fun _ => 11)
        (fun _ => 1 / 2) (fun _ => 0) 0 :=
  C4_deterministic (fun _ => 1) 2 2 0 (fun _ => 0) (fun _ => 5) (fun _ => -3)
    (fun _ => 7) (fun _ => 11) (fun _ => 9) (fun _ => 1 / 2) (fun _ => 0)
    (fun _ _ => by norm_num) (fun _ _ => by simp) 0

/-- In-bounds instrumentation of the `Haleq` recursion: at every node
of the call tree, the cumulative-histogram reads (`hist[right]`, and
`hist[left-1]` when `left > 0`) use indices in `[0, hist_bin_count)`,
the `sort_y` rank lookup index `num_left + pixel_num/2` lies in
`[0, pixel_num]`, and the anchor write index `(il+ir)/2` lies in
`[0, 255]`. -/
def HaleqSafe (y h : ℤ → ℤ) (hbcZ pn : ℤ) (left right : ℤ) (level : ℕ) (il ir : ℤ) :
    Prop :=
  (0 ≤ right ∧ right < hbcZ)
  ∧ (left ≤ 0 ∨ (1 ≤ left ∧ left - 1 < hbcZ))
  ∧ (0 ≤ (if 0 < left then h (left - 1) else 0)
        + Int.tdiv (h right - (if 0 < left then h (left - 1) else 0)) 2
      ∧ (if 0 < left then h (left - 1) else 0)
        + Int.tdiv (h right - (if 0 < left then h (left - 1) else 0)) 2 ≤ pn)
  ∧ (0 ≤ Int.tdiv (il + ir) 2 ∧ Int.tdiv (il + ir) 2 ≤ 255)
  ∧ (if _hguard : 5 < level then True
     else
       HaleqSafe y h hbcZ pn left
         (Int.tdiv ((if y ((if 0 < left then h (left - 1) else 0)
             + Int.tdiv (h right - (if 0 < left then h (left - 1) else 0)) 2) ≠ 0
           then y ((if 0 < left then h (left - 1) else 0)
             + Int.tdiv (h right - (if 0 < left then h (left - 1) else 0)) 2)
             + Int.tdiv (left + right) 2
           else 2 * Int.tdiv (left + right) 2) + 1) 2)
         (level + 1) il (Int.tdiv (il + ir) 2)
       ∧ HaleqSafe y h hbcZ pn
         (Int.tdiv ((if y ((if 0 < left then h (left - 1) else 0)
             + Int.tdiv (h right - (if 0 < left then h (left - 1) else 0)) 2) ≠ 0
           then y ((if 0 < left then h (left - 1) else 0)
             + Int.tdiv (h right - (if 0 < left then h (left - 1) else 0)) 2)
             + Int.tdiv (left + right) 2
           else 2 * Int.tdiv (left + right) 2) + 1) 2 + 1)
         right (level + 1) (Int.tdiv (il + ir) 2 + 1) ir)
termination_by 6 - level
decreasing_by all_goals omega

lemma HaleqSafe_of_inv :
    ∀ (d level : ℕ), 6 - level ≤ d →
      ∀ (y h : ℤ → ℤ) (hbcZ pn T left right il ir : ℤ),
      (∀ jj : ℤ, 0 ≤ jj → jj < hbcZ → 0 ≤ h jj ∧ h jj ≤ T) →
      (∀ r : ℤ, 0 ≤ r → r ≤ T → 0 ≤ y r ∧ y r < hbcZ) →
      T ≤ pn →
      0 ≤ left → left ≤ hbcZ → 0 ≤ right → right ≤ hbcZ - 1 →
      HaleqShape level il ir → ir ≤ 255 →
      HaleqSafe y h hbcZ pn left right level il ir := by
  intro d
  induction d with
  | zero =>
    intro level h6 y h hbcZ pn T left right il ir hcum hyrange hTpn
      hl1 hl2 hr1 hr2 hs hir
    have hlev : 5 < level := by
      rcases hs with ⟨hl6, -, -, -⟩
      omega
    have hTnn : 0 ≤ T := by
      have := hcum 0 (le_refl 0) (by omega)
      omega
    have ha := hcum right hr1 (by omega)
    have hbB : 0 ≤ (if 0 < left then h (left - 1) else 0)
        ∧ (if 0 < left then h (left - 1) else 0) ≤ T := by
      split_ifs with hlf
      · exact hcum (left - 1) (by omega) (by omega)
      · exact ⟨le_refl 0, hTnn⟩
    have hmid := tdiv_mid_bounds (h right) (if 0 < left then h (left - 1) else 0)
    have hmem := shape_index_mem level il ir hs
    rw [HaleqSafe]
    refine ⟨⟨hr1, by omega⟩, ?_, ⟨by omega, by omega⟩, ⟨by omega, by omega⟩, ?_⟩
    · rcases le_or_lt left 0 with hc | hc
      · exact Or.inl hc
      · exact Or.inr ⟨by omega, by omega⟩
    · rw [dif_pos hlev]
      trivial
  | succ d ih =>
    intro level h6 y h hbcZ pn T left right il ir hcum hyrange hTpn
      hl1 hl2 hr1 hr2 hs hir
    have hTnn : 0 ≤ T := by
      have := hcum 0 (le_refl 0) (by omega)
      omega
    have ha := hcum right hr1 (by omega)
    have hbB : 0 ≤ (if 0 < left then h (left - 1) else 0)
        ∧ (if 0 < left then h (left - 1) else 0) ≤ T := by
      split_ifs with hlf
      · exact hcum (left - 1) (by omega) (by omega)
      · exact ⟨le_refl 0, hTnn⟩
    have hmid := tdiv_mid_bounds (h right) (if 0 < left then h (left - 1) else 0)
    have hmem := shape_index_mem level il ir hs
    rw [HaleqSafe]
    refine ⟨⟨hr1, by omega⟩, ?_, ⟨by omega, by omega⟩, ⟨by omega, by omega⟩, ?_⟩
    · rcases le_or_lt left 0 with hc | hc
      · exact Or.inl hc
      · exact Or.inr ⟨by omega, by omega⟩
    · by_cases hlev : 5 < level
      · rw [dif_pos hlev]
        trivial
      · rw [dif_neg hlev]
        have hlev5 : level ≤ 5 := by omega
        have hrank : 0 ≤ (if 0 < left then h (left - 1) else 0)
              + Int.tdiv (h right - (if 0 < left then h (left - 1) else 0)) 2
            ∧ (if 0 < left then h (left - 1) else 0)
              + Int.tdiv (h right - (if 0 < left then h (left - 1) else 0)) 2 ≤ T := by
          omega
        have hyr := hyrange ((if 0 < left then h (left - 1) else 0)
          + Int.tdiv (h right - (if 0 < left then h (left - 1) else 0)) 2) hrank.1 hrank.2
        have hlb := l_val_bounds left right hbcZ hl1 hl2 hr1 hr2
        have hrleb := rle_bounds
          (y ((if 0 < left then h (left - 1) else 0)
            + Int.tdiv (h right - (if 0 < left then h (left - 1) else 0)) 2))
          (Int.tdiv (left + right) 2) hbcZ hyr.1 hyr.2 hlb.1 hlb.2
        constructor
        · exact ih (level + 1) (by omega) y h hbcZ pn T left _ il _
            hcum hyrange hTpn hl1 hl2 hrleb.1 (by omega)
            (shape_left level il ir hs hlev5) (by omega)
        · exact ih (level + 1) (by omega) y h hbcZ pn T _ right _ ir
            hcum hyrange hTpn (by omega) (by omega) hr1 hr2
            (shape_right level il ir hs hlev5) hir

lemma hist_log_sum_le (hist : ℕ → ℤ) (mil : ℕ → ℕ) (hbc : ℕ)
    (hh : ∀ i : ℕ, i < hbc → 0 ≤ hist i) :
    ∑ k in Finset.range hbc, hist_log hist mil hbc k
      ≤ ∑ i in Finset.range hbc, hist i := by
  simp only [hist_log]
  rw [Finset.sum_comm]
  apply Finset.sum_le_sum
  intro i hi
  rw [Finset.sum_ite_eq]
  split
  · exact le_refl _
  · exact hh i (Finset.mem_range.mp hi)

/-- C10: under the precondition that the histogram counts are
non-negative and sum to `pixel_num`, (a) the `sort_y` fill writes only
indices `≤ pixel_num` (its final write cursor is at most
`pixel_num + 1`, and it starts at 1), so together with the final
`sort_y[0] = 0` store all writes land in the `pixel_num + 1`-element
array; and (b) the whole `Haleq` recursion launched by
`Block_split_haleq` is in-bounds: every cumulative-histogram access
uses an index in `[0, hist_bin_count)`, every rank lookup index lies
in `[0, pixel_num]`, and every anchor write index lies in
`[0, 255]`. -/
theorem C10_memory_safe (hist : ℕ → ℤ) (hbc : ℕ) (pn : ℤ) (mil : ℕ → ℕ) (gY : ℤ → ℤ)
    (hh : ∀ i : ℕ, i < hbc → 0 ≤ hist i)
    (hsum : ∑ i in Finset.range hbc, hist i = pn)
    (hhbc : 1 ≤ hbc) :
    (sort_y_fillAux (hist_log hist mil hbc) gY hbc).2 ≤ pn + 1
    ∧ HaleqSafe (sort_y (hist_log hist mil hbc) hbc gY) (cumlog (hist_log hist mil hbc))
        (hbc : ℤ) pn 0 ((hbc : ℤ) - 1) 0 0 255 := by
  have hlnn : ∀ t : ℕ, 0 ≤ hist_log hist mil hbc t := hist_log_nonneg hist mil hbc hh
  have hTle : ∑ k in Finset.range hbc, hist_log hist mil hbc k ≤ pn := by
    rw [← hsum]
    exact hist_log_sum_le hist mil hbc hh
  constructor
  · rw [sort_y_fillAux_snd]
    have hmx : ∑ i in Finset.range hbc, max (hist_log hist mil hbc i) 0
        = ∑ i in Finset.range hbc, hist_log hist mil hbc i :=
      Finset.sum_congr rfl (fun i _ => max_eq_left (hlnn i))
    omega
  · have hhbcZ : (1 : ℤ) ≤ (hbc : ℤ) := by exact_mod_cast hhbc
    apply HaleqSafe_of_inv 6 0 (by omega) _ _ _ _
      (∑ k in Finset.range hbc, hist_log hist mil hbc k)
    · exact fun jj h1 h2 => cumlog_bounds (hist_log hist mil hbc) hbc hlnn jj h1 h2
    · exact sort_y_range (hist_log hist mil hbc) hbc gY hlnn hhbc
    · exact hTle
    · exact le_refl 0
    · omega
    · omega
    · omega
    · exact ⟨by omega, le_refl 0, ⟨0, by ring⟩, by norm_num⟩
    · norm_num

/-- Witness for C10 at the all-zero histogram with one bin. -/
theorem C10_memory_safe_witness :
    (sort_y_fillAux (hist_log (fun _ => 0) (fun _ => 0) 1) (fun _ => 0) 1).2 ≤ 0 + 1 :=
  (C10_memory_safe (fun _ => 0) 1 0 (fun _ => 0) (fun _ => 0)
    (fun _ _ => le_refl 0) (by simp) (le_refl 1)).1
